import Mathlib

/-!
Verification of the population plan-score evaluation pipeline.

This file gives a shallow embedding, in Lean 4, of the algorithmic core of
the plan-score pipeline (`src/plan_score_pipeline.py`) and of the stability
experiment (`scripts/step3_stability_experiment.py`), and proves the spec's
claims about them.

Modelling conventions:
* Python floats are modelled as exact rationals (`Rat`); the single place
  where a float NaN can arise in the scoring code (an empty distribution in
  `compute_percentile`) is modelled explicitly by the `PyFloat` type below.
* Python `None`-or-value slots are modelled with `Option`.
* Python dicts (which iterate in insertion order and have unique keys) are
  modelled as association lists `List (key × value)`; `List.lookup` matches
  Python's `dict.get`.
* Dynamically typed slots that the code inspects with `isinstance` are
  modelled by the `PyVal` sum type.
-/

/-- Model of a dynamically typed Python value, covering exactly the cases
that `parse_numeric` and the record-extraction code distinguish:
`None`, `bool`, non-bool numbers (`int`/`float`), strings, anything else. -/
inductive PyVal where
  | pyNone : PyVal
  | pyBool : Bool → PyVal
  | pyInt : Int → PyVal
  | pyFloat : Rat → PyVal
  | pyStr : String → PyVal
  | pyOther : PyVal
deriving DecidableEq

/-- Model of a Python float that may be NaN. In the embedded code the only
NaN producer is `compute_percentile` on an empty distribution. -/
inductive PyFloat where
  | nan : PyFloat
  | val : Rat → PyFloat
deriving DecidableEq

/-- Whitespace test used by Python's `str.strip` and `str.split`
(restricted to the ASCII whitespace characters Lean's `Char.isWhitespace`
recognises). -/
def isWs (c : Char) : Bool :=
  c.isWhitespace

/-- Model of Python `str.strip()` at the character-list level: drop leading
and trailing whitespace. -/
def pyStrip (cs : List Char) : List Char :=
  ((cs.dropWhile isWs).reverse.dropWhile isWs).reverse

/-- Model of Python `str.strip()` on `String`. -/
def stripString (s : String) : String :=
  ⟨pyStrip s.data⟩

/-- Model of Python `str.lower()` on `String` (ASCII letters, matching
`Char.toLower`). -/
def lowerString (s : String) : String :=
  ⟨s.data.map Char.toLower⟩

/-- Auxiliary splitter: splits a character list at every character
satisfying `sep`, accumulating the current (reversed) word in `acc` and
dropping empty pieces, exactly like Python's `str.split()` /
`re.split` + filter. -/
def splitRunsAux (sep : Char → Bool) (acc : List Char) : List Char → List (List Char)
  | [] => if acc = [] then [] else [acc.reverse]
  | c :: cs =>
    if sep c then
      if acc = [] then splitRunsAux sep [] cs
      else acc.reverse :: splitRunsAux sep [] cs
    else splitRunsAux sep (c :: acc) cs

/-- Split a character list on runs of separator characters, dropping empty
pieces. With `sep = isWs` this is Python's `str.split()`; with
`sep = fun c => !c.isAlphanum` it is `re.split(r"[^A-Za-z0-9]+", ...)`
followed by dropping empty tokens. -/
def splitRuns (sep : Char → Bool) (cs : List Char) : List (List Char) :=
  splitRunsAux sep [] cs

/-- Join words with a single space between them: Python's
`" ".join(words)` at the character-list level. -/
def joinWords : List (List Char) → List Char
  | [] => []
  | [w] => w
  | w :: w2 :: ws => w ++ ' ' :: joinWords (w2 :: ws)

/-- Core of `normalize_text` on an actual string: Python's
`" ".join(value.strip().lower().split())`. -/
def normCore (s : String) : String :=
  ⟨joinWords (splitRuns isWs ((pyStrip s.data).map Char.toLower))⟩

/-- Embedding of `normalize_text` (plan_score_pipeline.py lines 38-43).
`None` maps to `None`; a string is stripped, lower-cased, split on
whitespace runs and re-joined with single spaces. The source's coercion
branch for non-string input (`value = str(value)`) is outside this model:
callers in the embedded claims always pass `None` or a string. -/
def normalize_text (v : Option String) : Option String :=
  match v with
  | none => none
  | some s => some (normCore s)

/-- Value of a digit run, most significant first (`foldl` over base 10). -/
def digitsToNat (cs : List Char) : Nat :=
  cs.foldl (fun a c => a * 10 + (c.toNat - 48)) 0

/-- Model of CPython `float(string)` on an already-stripped string, for
finite decimal literals: optional sign, digits with an optional decimal
point, and an optional exponent. Special forms (`inf`, `nan`, underscore
separators) are outside the model since the embedding uses exact
rationals. Returns `none` where `float(...)` raises `ValueError`. -/
def floatOfChars (cs : List Char) : Option Rat :=
  let signAndRest : Rat × List Char :=
    match cs with
    | '-' :: rest => (-1, rest)
    | '+' :: rest => (1, rest)
    | _ => (1, cs)
  let sign := signAndRest.1
  let cs0 := signAndRest.2
  let intPart := cs0.takeWhile Char.isDigit
  let cs1 := cs0.dropWhile Char.isDigit
  let fracAndRest : List Char × List Char :=
    match cs1 with
    | '.' :: rest => (rest.takeWhile Char.isDigit, rest.dropWhile Char.isDigit)
    | _ => ([], cs1)
  let fracPart := fracAndRest.1
  let cs2 := fracAndRest.2
  if intPart = [] ∧ fracPart = [] then none
  else
    let mantissa : Rat :=
      (digitsToNat intPart : Rat) + (digitsToNat fracPart : Rat) / ((10 ^ fracPart.length : Nat) : Rat)
    match cs2 with
    | [] => some (sign * mantissa)
    | e :: rest =>
      if e = 'e' ∨ e = 'E' then
        let expSignAndRest : Bool × List Char :=
          match rest with
          | '-' :: r => (false, r)
          | '+' :: r => (true, r)
          | _ => (true, rest)
        let edigits := expSignAndRest.2.takeWhile Char.isDigit
        let erest := expSignAndRest.2.dropWhile Char.isDigit
        if edigits = [] ∨ erest ≠ [] then none
        else
          let ex := digitsToNat edigits
          some (sign * mantissa *
            (if expSignAndRest.1 then ((10 : Rat) ^ ex) else 1 / ((10 : Rat) ^ ex)))
      else none

/-- Embedding of `parse_numeric` (plan_score_pipeline.py lines 46-59):
`None` for `None`; `float(x)` for non-bool `int`/`float`; for a string,
strip it, return `None` when empty, otherwise attempt `float(...)`;
`None` for every other type. Booleans fall through the
`isinstance(value, (int, float)) and not isinstance(value, bool)` guard
and the string branch, reaching the final `return None`. -/
def parse_numeric : PyVal → Option Rat
  | .pyNone => none
  | .pyBool _ => none
  | .pyInt n => some (n : Rat)
  | .pyFloat q => some q
  | .pyStr s =>
    let cleaned := pyStrip s.data
    if cleaned = [] then none else floatOfChars cleaned
  | .pyOther => none

/-- Right insertion index of `value` into `sortedValues`: the length of the
longest prefix of elements `≤ value`. On an ascending-sorted array this is
exactly `np.searchsorted(sorted_values, value, side="right")`
(plan_score_pipeline.py line 474). -/
def searchsorted_right (sortedValues : List Rat) (value : Rat) : Nat :=
  (sortedValues.takeWhile (fun x => decide (x ≤ value))).length

/-- Percentile base of `compute_percentile` (plan_score_pipeline.py lines
471-479) for a non-empty distribution: `1.0` when `n == 1`, otherwise
`(rank - 1) / (n - 1)` with the right-insertion rank clamped to `[1, n]`. -/
def percentile_base (value : Rat) (sortedValues : List Rat) : Rat :=
  if sortedValues.length = 1 then 1
  else
    let rank := min (max (searchsorted_right sortedValues value) 1) sortedValues.length
    ((rank : Rat) - 1) / ((sortedValues.length : Rat) - 1)

/-- Embedding of `compute_percentile` (plan_score_pipeline.py lines
467-482): NaN on an empty distribution; otherwise the percentile base,
inverted (`1 - base`) when the direction is `"lower"`. -/
def compute_percentile (value : Rat) (sortedValues : List Rat) (direction : String) : PyFloat :=
  if sortedValues.length = 0 then .nan
  else if direction = "lower" then .val (1 - percentile_base value sortedValues)
  else .val (percentile_base value sortedValues)

/-- Accumulate `total_score += weight * percentile` where the running score
and the percentile are possibly-NaN floats (NaN is absorbing, as in Python
float arithmetic). -/
def pfAddMul (acc : PyFloat) (w : Rat) (p : PyFloat) : PyFloat :=
  match acc, p with
  | .val a, .val b => .val (a + w * b)
  | _, _ => .nan

/-- Divide a possibly-NaN float by a rational. -/
def pfDiv (a : PyFloat) (w : Rat) : PyFloat :=
  match a with
  | .val x => .val (x / w)
  | .nan => .nan

/-- One iteration of the loop of `compute_plan_score` (plan_score_pipeline.py
lines 493-501): look up the distribution, direction and weight of the
constraint; skip the constraint if any of the three is absent; otherwise add
the weighted percentile to the running totals
`(total_weight, total_score)`. -/
def scoreStep (distributions : List (String × List Rat)) (directions : List (String × String))
    (weights : List (String × Rat)) (acc : Rat × PyFloat) (kv : String × Rat) : Rat × PyFloat :=
  match List.lookup kv.1 distributions, List.lookup kv.1 directions, List.lookup kv.1 weights with
  | some dist, some dir, some w =>
    (acc.1 + w, pfAddMul acc.2 w (compute_percentile kv.2 dist dir))
  | _, _, _ => acc

/-- Embedding of `compute_plan_score` (plan_score_pipeline.py lines
485-504): fold the per-constraint loop over the plan's constraint vector,
return `None` when the total weight is zero, and the weighted mean
otherwise. -/
def compute_plan_score (plan_constraints : List (String × Rat))
    (distributions : List (String × List Rat)) (directions : List (String × String))
    (weights : List (String × Rat)) : Option PyFloat :=
  let acc := plan_constraints.foldl (scoreStep distributions directions weights) (0, .val 0)
  if acc.1 = 0 then none else some (pfDiv acc.2 acc.1)

/-- Rank formula stated by the spec for the percentile scorer: the
right-insertion index of `v` — on a sorted array, the number of elements
`≤ v` — clamped to `[1, n]`. This definition follows the spec's wording and
is compared against the source-derived `compute_percentile`. -/
def rank_spec (sortedValues : List Rat) (v : Rat) : Nat :=
  min (max (sortedValues.countP (fun x => decide (x ≤ v))) 1) sortedValues.length

/-- Percentile formula stated by the spec (spec.md section 4.6): base `1.0`
for a singleton distribution, otherwise `(rank - 1) / (n - 1)` with
`rank = rank_spec`; the final percentile is `1 - base` for lower-is-better
and `base` for higher-is-better. -/
def percentile_spec (v : Rat) (sortedValues : List Rat) (direction : String) : Rat :=
  let base : Rat :=
    if sortedValues.length = 1 then 1
    else ((rank_spec sortedValues v : Rat) - 1) / ((sortedValues.length : Rat) - 1)
  if direction = "lower" then 1 - base else base

/-- Embedding of `tokenize` (plan_score_pipeline.py lines 256-257):
lower-case the string, split on runs of non-alphanumeric characters, drop
empty tokens. -/
def tokenize (s : String) : List String :=
  (splitRuns (fun c => !c.isAlphanum) (s.data.map Char.toLower)).map (fun w => (⟨w⟩ : String))

/-- Python truthiness of an optional string: `None` and the empty string
are falsy. -/
def truthy : Option String → Bool
  | none => false
  | some s => s ≠ ""

/-- One candidate update of the fuzzy-matching loop of `resolve_structure`
(plan_score_pipeline.py lines 282-290): skip candidates with an empty
token set; otherwise compute the token-set overlap ratio and keep the
candidate exactly when its score strictly exceeds the best score so far
(so the first maximum wins). `rawTokens` is the deduplicated token set of
the raw label. -/
def fuzzyStep (rawTokens : List String) (best : Option String × Rat) (kv : String × String) :
    Option String × Rat :=
  let targetTokens := (tokenize kv.2).dedup
  if targetTokens = [] then best
  else
    let overlap := rawTokens.filter (fun t => targetTokens.contains t)
    let score : Rat := (overlap.length : Rat) / ((max rawTokens.length targetTokens.length : Nat) : Rat)
    if best.2 < score then (some kv.2, score) else best

/-- Fuzzy-matching fold of `resolve_structure` (plan_score_pipeline.py lines
280-290): iterate over the protocol structure map in order, starting from
no candidate and score `0.0`. -/
def fuzzyBest (rawTokens : List String) (protocol_structure_map : List (String × String)) :
    Option String × Rat :=
  protocol_structure_map.foldl (fuzzyStep rawTokens) (none, 0)

/-- Embedding of `resolve_structure` (plan_score_pipeline.py lines 260-293):
exact alias-table match on the normalized label, then exact match against
the protocol's normalized vocabulary, then the fuzzy token-overlap
fallback; `none` when every step fails. The `truthy` tests mirror Python's
`if alias:` / `if direct:` / `if best_match and best_score > 0:`. -/
def resolve_structure (raw_name : Option String) (alias_map : List (String × String))
    (protocol_structure_map : List (String × String)) : Option String :=
  if ¬ truthy raw_name then none
  else
    match raw_name with
    | none => none
    | some raw =>
      let normalized := normCore raw
      if normalized = "" then none
      else
        let aliasHit := List.lookup normalized alias_map
        if truthy aliasHit then aliasHit
        else
          let directHit := List.lookup normalized protocol_structure_map
          if truthy directHit then directHit
          else
            let rawTokens := (tokenize raw).dedup
            if rawTokens = [] then none
            else
              let best := fuzzyBest rawTokens protocol_structure_map
              if truthy best.1 ∧ 0 < best.2 then best.1 else none

/-- Resolver algorithm as worded by the spec (spec.md section 4.2): three
steps in priority order — exact alias-table match on the normalized label,
exact match in the protocol's normalized vocabulary, fuzzy token-set
overlap picking the first strictly-highest positive ratio — and absent
when no step succeeds. Written from the spec's words, to be compared with
the source-derived `resolve_structure`. -/
def resolveStructureSpec (raw_name : Option String) (alias_map : List (String × String))
    (protocol_structure_map : List (String × String)) : Option String :=
  match raw_name with
  | none => none
  | some raw =>
    let normalized := normCore raw
    if normalized = "" then none
    else
      match List.lookup normalized alias_map with
      | some a => some a
      | none =>
        match List.lookup normalized protocol_structure_map with
        | some d => some d
        | none =>
          let best := fuzzyBest ((tokenize raw).dedup) protocol_structure_map
          match best.1 with
          | some c => if 0 < best.2 then some c else none
          | none => none

/-- Embedding of `normalize_operator` (plan_score_pipeline.py lines 62-68):
strip the operator; keep the four symbolic comparison operators unchanged;
lower-case any other text. -/
def normalize_operator (v : Option String) : Option String :=
  match v with
  | none => none
  | some s =>
    let t := stripString s
    if t = "<=" ∨ t = "<" ∨ t = ">=" ∨ t = ">" then some t
    else some (lowerString t)

/-- Canonical 7-tuple constraint key (plan_score_pipeline.py lines 81-98):
normalized structure and metric text, normalized operators, numeric goal
and variation values, priority. -/
def constraint_key (s m : Option String) (go : Option String) (gv : Option Rat)
    (vo : Option String) (vv : Option Rat) (p : Option Int) :
    Option String × Option String × Option String × Option Rat × Option String × Option Rat × Option Int :=
  (normalize_text s, normalize_text m, normalize_operator go, gv, normalize_operator vo, vv, p)

/-- Render one component of a constraint key: empty for `None`, otherwise
the rendering function applied to the value (Python `str(item)`). -/
def optStr {α : Type} (f : α → String) : Option α → String
  | none => ""
  | some x => f x

/-- Join key components with the literal separator used by
`constraint_key_to_str`. -/
def joinBars : List String → String
  | [] => ""
  | [p] => p
  | p :: p2 :: ps => p ++ "||" ++ joinBars (p2 :: ps)

/-- Embedding of `constraint_key_to_str` (plan_score_pipeline.py lines
101-108): render each component (empty for `None`) and join with `"||"`.
Numbers are rendered with Lean's `Rat`/`Int` printers rather than CPython's
float `repr`; the rendering is injective on the embedded values, which is
the only property the keyed lookups rely on. -/
def constraint_key_to_str
    (k : Option String × Option String × Option String × Option Rat × Option String × Option Rat × Option Int) :
    String :=
  joinBars [optStr id k.1, optStr id k.2.1, optStr id k.2.2.1, optStr toString k.2.2.2.1,
    optStr id k.2.2.2.2.1, optStr toString k.2.2.2.2.2.1, optStr toString k.2.2.2.2.2.2]

/-- Truncation toward zero: Python's `int(float)`. -/
def ratTrunc (q : Rat) : Int :=
  if 0 ≤ q then q.floor else q.ceil

/-- Model of CPython `int(string)`: optional surrounding whitespace,
optional sign, then a non-empty digit run (underscore separators are
outside the model). `none` where `int(...)` raises `ValueError`. -/
def intOfChars (cs : List Char) : Option Int :=
  let stripped := pyStrip cs
  let signAndRest : Int × List Char :=
    match stripped with
    | '-' :: r => (-1, r)
    | '+' :: r => (1, r)
    | _ => (1, stripped)
  if signAndRest.2 ≠ [] ∧ signAndRest.2.all Char.isDigit then
    some (signAndRest.1 * (digitsToNat signAndRest.2 : Int))
  else none

/-- Model of the guarded priority conversion
`int(priority) if priority is not None else None` with
`except (TypeError, ValueError): priority_value = None`
(plan_score_pipeline.py lines 438-442): `None` stays `None`, booleans
convert as `0`/`1`, ints stay, floats truncate toward zero, strings parse
as integers, anything else fails to `None`. -/
def pyIntConv : PyVal → Option Int
  | .pyNone => none
  | .pyBool b => some (if b then 1 else 0)
  | .pyInt n => some n
  | .pyFloat q => some (ratTrunc q)
  | .pyStr s => intOfChars s.data
  | .pyOther => none

/-- Python's `x or y` on optional strings (the only falsy string is the
empty one): used for `metric.get("display") or result.get("objective")`
and `result.get("structure_tg263") or result.get("structure")`. -/
def pyOrStr (a b : Option String) : Option String :=
  match a with
  | none => b
  | some s => if s = "" then b else some s

/-- One per-constraint result record of a plan, with the dict accesses of
`extract_plan_constraints` (plan_score_pipeline.py lines 433-457) already
flattened: `metric_display` is `result["metric"]["display"]` (absent when
the `metric` dict or the field is missing), `achieved_value` is
`result["achieved"]["value"]`, and so on. -/
structure ResultRecord where
  metric_display : Option String
  objective : Option String
  structure_tg263 : Option String
  structure_name : Option String
  priority : PyVal
  goal_operator : Option String
  goal_value : PyVal
  variation_operator : Option String
  variation_value : PyVal
  achieved_value : PyVal
deriving DecidableEq

/-- Serialized constraint key built for one result record by
`extract_plan_constraints` (plan_score_pipeline.py lines 434-454):
resolve the structure label, assemble the 7-tuple key, render it. -/
def record_key_str (alias_map protocol_structure_map : List (String × String))
    (r : ResultRecord) : String :=
  let md := pyOrStr r.metric_display r.objective
  let rawStructure := pyOrStr r.structure_tg263 r.structure_name
  let st := resolve_structure rawStructure alias_map protocol_structure_map
  constraint_key_to_str
    (constraint_key st md r.goal_operator (parse_numeric r.goal_value)
      r.variation_operator (parse_numeric r.variation_value) (pyIntConv r.priority))

/-- Loop body of `extract_plan_constraints` (plan_score_pipeline.py lines
433-463), with the accumulated mapping made explicit: skip a record whose
key is not in the constraint index, whose achieved value does not parse,
or whose key is already recorded; otherwise append the achieved value
under the key. -/
def extractAux (constraint_lookup : List String)
    (alias_map protocol_structure_map : List (String × String)) :
    List (String × Rat) → List ResultRecord → List (String × Rat)
  | matched, [] => matched
  | matched, r :: rest =>
    let key_str := record_key_str alias_map protocol_structure_map r
    if ¬ constraint_lookup.contains key_str then
      extractAux constraint_lookup alias_map protocol_structure_map matched rest
    else
      match parse_numeric r.achieved_value with
      | none => extractAux constraint_lookup alias_map protocol_structure_map matched rest
      | some v =>
        if (List.lookup key_str matched).isSome then
          extractAux constraint_lookup alias_map protocol_structure_map matched rest
        else
          extractAux constraint_lookup alias_map protocol_structure_map
            (matched ++ [(key_str, v)]) rest

/-- Embedding of `extract_plan_constraints` (plan_score_pipeline.py lines
418-464). The constraint index is modelled by its key set (only membership
is used). `none` results model the `results is None` / NaN guards, which
yield the empty mapping. -/
def extract_plan_constraints (results : Option (List ResultRecord))
    (constraint_lookup : List String)
    (alias_map protocol_structure_map : List (String × String)) : List (String × Rat) :=
  match results with
  | none => []
  | some rs => extractAux constraint_lookup alias_map protocol_structure_map [] rs

/-- Value a single record contributes under key `k`: its parsed achieved
value when the record's key equals `k` and `k` is in the constraint index,
`none` otherwise. The first record with a `some` contribution is the one
`extract_plan_constraints` records. -/
def recordContribution (constraint_lookup : List String)
    (alias_map protocol_structure_map : List (String × String))
    (r : ResultRecord) (k : String) : Option Rat :=
  if record_key_str alias_map protocol_structure_map r = k ∧ constraint_lookup.contains k then
    parse_numeric r.achieved_value
  else none

/-- Maximum of a list of rationals with `np.max` semantics on non-empty
input (the empty case never occurs in the embedded call sites; `0` is a
junk value there). -/
def npMax : List Rat → Rat
  | [] => 0
  | x :: xs => xs.foldl max x

/-- Predicted metric value of the fitted inverse-square-root curve at
sample size `n`: `intercept + slope / sqrt(n)`
(step3_stability_experiment.py line 92). The square root is supplied as an
abstract function `s`, since exact real square roots are not computable on
rationals; theorems constrain `s` by rational bounds. -/
def predictedValue (s : Rat → Rat) (intercept slope : Rat) (n : Rat) : Rat :=
  intercept + slope / s n

/-- Plateau target of `estimate_n_star`
(step3_stability_experiment.py lines 93-94):
`intercept + plateau_fraction * (max_predicted - intercept)`. -/
def nstarTarget (s : Rat → Rat) (nValues : List Rat) (intercept slope plateauFraction : Rat) : Rat :=
  intercept + plateauFraction * (npMax (nValues.map (predictedValue s intercept slope)) - intercept)

/-- Embedding of `estimate_n_star` (step3_stability_experiment.py lines
86-98): pair each sampled `N` with its predicted value, walk the pairs in
ascending order of `N`, return the first `N` whose prediction is at or
below the plateau target, or the last entry of `n_values` when none
qualifies. `none` models the `np.max` error on an empty input, which the
caller (which requires at least three sample sizes) never triggers. -/
def estimate_n_star (s : Rat → Rat) (nValues : List Rat)
    (intercept slope plateauFraction : Rat) : Option Int :=
  match nValues with
  | [] => none
  | _ :: _ =>
    let target := nstarTarget s nValues intercept slope plateauFraction
    let pairs := (nValues.zip (nValues.map (predictedValue s intercept slope))).mergeSort
      (fun a b => decide (a.1 ≤ b.1))
    match pairs.find? (fun p => decide (p.2 ≤ target)) with
    | some p => some (ratTrunc p.1)
    | none => some (ratTrunc (nValues.getLastD 0))

/-- Validity of one plan's score in the bootstrap loop: pandas `notna` is
false for Python `None` and for NaN, true for any actual number. -/
def isValidScore : Option PyFloat → Bool
  | some (.val _) => true
  | _ => false

/-- Number of test plans scoreable under both references
(step3_stability_experiment.py lines 307-308):
`(sample_scores.notna() & full_scores.notna()).sum()`. -/
def validCount (sampleScores fullScores : List (Option PyFloat)) : Nat :=
  (sampleScores.zip fullScores).countP (fun p => isValidScore p.1 && isValidScore p.2)

/-- One retained stability record of the bootstrap loop
(step3_stability_experiment.py lines 320-333), restricted to the fields
the size invariant speaks about; the agreement metrics (`mae`, `ks`,
`wasserstein`, `bottom_decile_agreement`) are computed from the same
masked score vectors and do not bear on the invariant. -/
structure StabilityRecord where
  sampleN : Nat
  bootstrap_id : Nat
  valid_plans : Nat
  test_size : Nat
deriving DecidableEq

/-- Embedding of the bootstrap loop of `main`
(step3_stability_experiment.py lines 294-333) for one protocol: for every
qualifying sample size and every bootstrap draw, compute the number of
jointly scoreable test plans and retain a record only when it reaches
`min_valid`. The scores produced by a draw are abstracted by
`sampleScoresOf`, since they depend on the database-driven sampling;
`fullScores` is the fixed test set's full-population score column. -/
def bootstrapRecords (availableSizes : List Nat) (bootstraps : Nat) (minValid : Nat)
    (fullScores : List (Option PyFloat))
    (sampleScoresOf : Nat → Nat → List (Option PyFloat)) : List StabilityRecord :=
  availableSizes.flatMap (fun n =>
    (List.range bootstraps).filterMap (fun b =>
      let vc := validCount (sampleScoresOf n b) fullScores
      if vc < minValid then none
      else some ⟨n, b, vc, fullScores.length⟩))

/-- A lower-cased character is never an upper-case ASCII letter. -/
theorem toLower_not_upper (c : Char) : (Char.toLower c).isUpper = false := by
  unfold Char.toLower
  by_cases h : c.toNat ≥ 65 ∧ c.toNat ≤ 90
  · rw [if_pos h]
    have hval : (Char.ofNat (c.toNat + 32)).toNat = c.toNat + 32 := by
      rw [Char.ofNat, dif_pos (Or.inl (by omega : c.toNat + 32 < 0xd800))]
      rfl
    simp only [Char.isUpper, Bool.and_eq_false_iff, decide_eq_false_iff_not]
    right
    intro hle
    have h2 : (Char.ofNat (c.toNat + 32)).val.toNat ≤ (90 : UInt32).toNat := hle
    have h3 : (90 : UInt32).toNat = 90 := by decide
    rw [h3] at h2
    have h4 : (Char.ofNat (c.toNat + 32)).val.toNat = c.toNat + 32 := hval
    omega
  · rw [if_neg h]
    simp only [Char.isUpper, Bool.and_eq_false_iff, decide_eq_false_iff_not]
    by_cases h65 : 65 ≤ c.toNat
    · right
      intro hle
      have h2 : c.val.toNat ≤ (90 : UInt32).toNat := hle
      have h3 : (90 : UInt32).toNat = 90 := by decide
      have h4 : c.toNat = c.val.toNat := rfl
      omega
    · left
      intro hle
      have h2 : (65 : UInt32).toNat ≤ c.val.toNat := hle
      have h3 : (65 : UInt32).toNat = 65 := by decide
      have h4 : c.toNat = c.val.toNat := rfl
      omega

/-- Every word produced by the splitter is non-empty and free of separator
characters. -/
theorem splitRunsAux_sound (sep : Char → Bool) :
    ∀ (cs acc : List Char), (∀ c ∈ acc, sep c = false) →
      ∀ w ∈ splitRunsAux sep acc cs, w ≠ [] ∧ ∀ c ∈ w, sep c = false := by
  intro cs
  induction cs with
  | nil =>
    intro acc hacc w hw
    unfold splitRunsAux at hw
    by_cases ha : acc = []
    · rw [if_pos ha] at hw
      simp at hw
    · rw [if_neg ha] at hw
      simp at hw
      subst hw
      refine ⟨by simpa using ha, ?_⟩
      intro c hc
      exact hacc c (List.mem_reverse.mp hc)
  | cons c cs ih =>
    intro acc hacc w hw
    unfold splitRunsAux at hw
    by_cases hc : sep c
    · rw [if_pos hc] at hw
      by_cases ha : acc = []
      · rw [if_pos ha] at hw
        exact ih [] (by simp) w hw
      · rw [if_neg ha] at hw
        rcases List.mem_cons.mp hw with rfl | hw'
        · refine ⟨by simpa using ha, ?_⟩
          intro x hx
          exact hacc x (List.mem_reverse.mp hx)
        · exact ih [] (by simp) w hw'
    · rw [if_neg hc] at hw
      refine ih (c :: acc) ?_ w hw
      intro x hx
      rcases List.mem_cons.mp hx with rfl | hx'
      · simpa using hc
      · exact hacc x hx'

/-- Characters of the splitter's words come from the accumulator or from
the input. -/
theorem splitRunsAux_subset (sep : Char → Bool) :
    ∀ (cs acc : List Char), ∀ w ∈ splitRunsAux sep acc cs, ∀ c ∈ w, c ∈ acc ∨ c ∈ cs := by
  intro cs
  induction cs with
  | nil =>
    intro acc w hw c hc
    unfold splitRunsAux at hw
    by_cases ha : acc = []
    · rw [if_pos ha] at hw
      simp at hw
    · rw [if_neg ha] at hw
      simp at hw
      subst hw
      exact Or.inl (List.mem_reverse.mp hc)
  | cons a cs ih =>
    intro acc w hw c hc
    unfold splitRunsAux at hw
    by_cases hs : sep a
    · rw [if_pos hs] at hw
      by_cases ha : acc = []
      · rw [if_pos ha] at hw
        rcases ih [] w hw c hc with h | h
        · simp at h
        · exact Or.inr (List.mem_cons_of_mem a h)
      · rw [if_neg ha] at hw
        rcases List.mem_cons.mp hw with rfl | hw'
        · exact Or.inl (List.mem_reverse.mp hc)
        · rcases ih [] w hw' c hc with h | h
          · simp at h
          · exact Or.inr (List.mem_cons_of_mem a h)
    · rw [if_neg hs] at hw
      rcases ih (a :: acc) w hw c hc with h | h
      · rcases List.mem_cons.mp h with h0 | h'
        · exact Or.inr (by simp [h0])
        · exact Or.inl h'
      · exact Or.inr (List.mem_cons_of_mem a h)

/-- No two adjacent spaces: the collapsed-whitespace property of the
normalizer's output. -/
def noDoubleSpace (cs : List Char) : Prop :=
  List.Chain' (fun a b => ¬ (a = ' ' ∧ b = ' ')) cs

/-- Characters of a word join are either separator spaces or characters of
one of the words. -/
theorem mem_joinWords {c : Char} :
    ∀ ws : List (List Char), c ∈ joinWords ws → c = ' ' ∨ ∃ w ∈ ws, c ∈ w := by
  intro ws
  induction ws with
  | nil => intro h; simp [joinWords] at h
  | cons w ws ih =>
    intro h
    match ws, h with
    | [], h => exact Or.inr ⟨w, by simp, by simpa [joinWords] using h⟩
    | w2 :: ws', h =>
      rw [joinWords] at h
      rcases List.mem_append.mp h with h1 | h2
      · exact Or.inr ⟨w, by simp, h1⟩
      · rcases List.mem_cons.mp h2 with h3 | h4
        · exact Or.inl h3
        · rcases ih h4 with h5 | ⟨w', hw', hc⟩
          · exact Or.inl h5
          · exact Or.inr ⟨w', List.mem_cons_of_mem w hw', hc⟩

/-- A join of non-empty words is non-empty. -/
theorem joinWords_ne_nil {w : List Char} {ws : List (List Char)} (hw : w ≠ []) :
    joinWords (w :: ws) ≠ [] := by
  match ws with
  | [] => simpa [joinWords] using hw
  | w2 :: ws' =>
    rw [joinWords]
    simp [hw]

/-- The head of a join of words is the head of the first word. -/
theorem joinWords_head {w : List Char} (ws : List (List Char)) (hw : w ≠ []) :
    (joinWords (w :: ws)).head? = w.head? := by
  match ws with
  | [] => rw [joinWords]
  | w2 :: ws' =>
    rw [joinWords, List.head?_append]
    match w, hw with
    | c :: w', _ => rfl

/-- The last element of a join of words free of spaces is never a space. -/
theorem joinWords_getLast (ws : List (List Char))
    (hws : ∀ w ∈ ws, w ≠ [] ∧ ∀ c ∈ w, isWs c = false) :
    (joinWords ws).getLast? ≠ some ' ' := by
  induction ws with
  | nil => simp [joinWords]
  | cons w ws ih =>
    match ws with
    | [] =>
      rw [joinWords]
      intro h
      have hc : ' ' ∈ w := List.mem_of_mem_getLast? h
      have := (hws w (by simp)).2 ' ' hc
      simp [isWs] at this
    | w2 :: ws' =>
      rw [joinWords]
      have h2 : joinWords (w2 :: ws') ≠ [] :=
        joinWords_ne_nil (hws w2 (by simp)).1
      rw [List.getLast?_append_of_ne_nil _ (by simp)]
      have h3 : (' ' :: joinWords (w2 :: ws')).getLast? = (joinWords (w2 :: ws')).getLast? := by
        rw [List.getLast?_cons]
        match hlast : (joinWords (w2 :: ws')).getLast? with
        | some x => rfl
        | none =>
          rw [List.getLast?_eq_none_iff] at hlast
          exact absurd hlast h2
      rw [h3]
      exact ih (fun w' hw' => hws w' (List.mem_cons_of_mem w hw'))

/-- A list whose characters are all non-spaces trivially has no two
adjacent spaces. -/
theorem noDoubleSpace_of_no_space {l : List Char} (h : ∀ c ∈ l, c ≠ ' ') :
    noDoubleSpace l := by
  induction l with
  | nil => exact List.chain'_nil
  | cons a l ih =>
    rw [noDoubleSpace, List.chain'_cons']
    refine ⟨?_, ih (fun c hc => h c (List.mem_cons_of_mem a hc))⟩
    intro b _hb hab
    exact h a (by simp) hab.1

/-- A join of non-empty space-free words has no two adjacent spaces. -/
theorem joinWords_noDoubleSpace (ws : List (List Char))
    (hws : ∀ w ∈ ws, w ≠ [] ∧ ∀ c ∈ w, isWs c = false) :
    noDoubleSpace (joinWords ws) := by
  induction ws with
  | nil => exact List.chain'_nil
  | cons w ws ih =>
    have hwword := hws w (by simp)
    have hnospace : ∀ c ∈ w, c ≠ ' ' := by
      intro c hc he
      have := hwword.2 c hc
      rw [he] at this
      simp [isWs] at this
    match ws with
    | [] =>
      rw [joinWords]
      exact noDoubleSpace_of_no_space hnospace
    | w2 :: ws' =>
      rw [joinWords, noDoubleSpace, List.chain'_append]
      refine ⟨noDoubleSpace_of_no_space hnospace, ?_, ?_⟩
      · rw [List.chain'_cons']
        refine ⟨?_, ih (fun w' hw' => hws w' (List.mem_cons_of_mem w hw'))⟩
        intro b hb hab
        rw [joinWords_head ws' (hws w2 (by simp)).1] at hb
        have hbw2 : b ∈ w2 := List.mem_of_mem_head? hb
        have := (hws w2 (by simp)).2 b hbw2
        rw [hab.2] at this
        simp [isWs] at this
      · intro x hx y hy hxy
        have hxw : x ∈ w := List.mem_of_mem_getLast? hx
        have := hwword.2 x hxw
        rw [hxy.1] at this
        simp [isWs] at this

/-- C9 counterexample: the claim says the empty string input yields an
absent value, but `normalize_text` returns the empty string — a string,
not an absent value. -/
theorem normalize_text_empty_not_absent :
    normalize_text (some ("")) = some ("") ∧ normalize_text (some ("")) ≠ none := by
  exact ⟨rfl, by simp [normalize_text]⟩

/-- C9 (amended): `normalize_text` maps absent (`None`) input to an absent
value, and maps every string input to its canonical form — all whitespace
normalized to single spaces, no two adjacent spaces, no upper-case ASCII
letters, and no leading or trailing space. For empty or all-whitespace
input this canonical form is the empty string, which is returned as a
(falsy) string, not as an absent value. -/
theorem normalize_text_canonical_form :
    normalize_text none = none ∧
    normalize_text (some ("")) = some ("") ∧
    (∀ s r, normalize_text (some s) = some r →
      (∀ c ∈ r.data, c.isWhitespace = true → c = ' ') ∧
      noDoubleSpace r.data ∧
      (∀ c ∈ r.data, c.isUpper = false) ∧
      r.data.head? ≠ some ' ' ∧
      r.data.getLast? ≠ some ' ') := by
  refine ⟨rfl, rfl, ?_⟩
  intro s r h
  have hr : r = normCore s := by
    simpa [normalize_text] using h.symm
  subst hr
  have hdata : (normCore s).data = joinWords (splitRuns isWs ((pyStrip s.data).map Char.toLower)) := rfl
  set ws := splitRuns isWs ((pyStrip s.data).map Char.toLower) with hws
  have hgood : ∀ w ∈ ws, w ≠ [] ∧ ∀ c ∈ w, isWs c = false :=
    splitRunsAux_sound isWs _ [] (by simp)
  have hsubset : ∀ w ∈ ws, ∀ c ∈ w, c ∈ (pyStrip s.data).map Char.toLower := by
    intro w hw c hc
    rcases splitRunsAux_subset isWs _ [] w hw c hc with h1 | h2
    · simp at h1
    · exact h2
  rw [hdata]
  refine ⟨?_, joinWords_noDoubleSpace ws hgood, ?_, ?_, joinWords_getLast ws hgood⟩
  · intro c hc hwsc
    rcases mem_joinWords ws hc with h1 | ⟨w, hw, hcw⟩
    · exact h1
    · have := (hgood w hw).2 c hcw
      rw [isWs] at this
      rw [hwsc] at this
      simp at this
  · intro c hc
    rcases mem_joinWords ws hc with h1 | ⟨w, hw, hcw⟩
    · rw [h1]
      decide
    · have := hsubset w hw c hcw
      rcases List.mem_map.mp this with ⟨d, _, hd⟩
      rw [← hd]
      exact toLower_not_upper d
  · match hcase : ws with
    | [] => simp [joinWords]
    | w :: ws' =>
      rw [joinWords_head ws' (hgood w (by simp)).1]
      intro hhead
      have hmem : ' ' ∈ w := List.mem_of_mem_head? hhead
      have := (hgood w (by simp)).2 ' ' hmem
      simp [isWs] at this

/-- Witness for the amended C9 theorem at a concrete input. -/
theorem normalize_text_canonical_form_witness :
    (∀ c ∈ ("a b").data, c.isWhitespace = true → c = ' ') ∧
    noDoubleSpace ("a b").data ∧
    (∀ c ∈ ("a b").data, c.isUpper = false) ∧
    ("a b").data.head? ≠ some ' ' ∧
    ("a b").data.getLast? ≠ some ' ' :=
  normalize_text_canonical_form.2.2 (" A  b ") ("a b") (by decide)

/-- C10: `parse_numeric` is total over the value model (it is a Lean
function, so it raises nothing), returns `None` for every boolean even
though Python booleans are numeric, `float(x)` for non-bool `int`/`float`
input, the parsed value of the stripped text for strings (in particular
`None` for empty and non-numeric strings), and `None` for `None` and for
every other type. -/
theorem parse_numeric_behavior :
    (∀ b, parse_numeric (.pyBool b) = none) ∧
    (∀ n : Int, parse_numeric (.pyInt n) = some ((n : Rat))) ∧
    (∀ q : Rat, parse_numeric (.pyFloat q) = some q) ∧
    parse_numeric .pyNone = none ∧
    parse_numeric .pyOther = none ∧
    (∀ s : String, pyStrip s.data = [] → parse_numeric (.pyStr s) = none) ∧
    (∀ s : String, pyStrip s.data ≠ [] →
      parse_numeric (.pyStr s) = floatOfChars (pyStrip s.data)) := by
  refine ⟨fun b => rfl, fun n => rfl, fun q => rfl, rfl, rfl, ?_, ?_⟩
  · intro s hs
    simp [parse_numeric, hs]
  · intro s hs
    simp [parse_numeric, hs]

/-- Witness for the C10 theorem at concrete inputs: an all-whitespace
string parses to `None`, and a numeric string parses through
`floatOfChars`. -/
theorem parse_numeric_behavior_witness :
    parse_numeric (.pyStr ("  ")) = none ∧
    parse_numeric (.pyStr (" 2.5 ")) = floatOfChars (pyStrip ((" 2.5 ").data)) :=
  ⟨parse_numeric_behavior.2.2.2.2.2.1 ("  ") (by decide),
   parse_numeric_behavior.2.2.2.2.2.2 (" 2.5 ") (by decide)⟩

/-- On an ascending-sorted list, the right-insertion index (length of the
`≤ v` prefix) equals the number of elements `≤ v`. -/
theorem searchsorted_right_eq_countP {xs : List Rat} (h : xs.Sorted (· ≤ ·)) (v : Rat) :
    searchsorted_right xs v = xs.countP (fun x => decide (x ≤ v)) := by
  induction xs with
  | nil => rfl
  | cons a xs ih =>
    rw [List.sorted_cons] at h
    by_cases ha : a ≤ v
    · rw [searchsorted_right, List.takeWhile_cons, if_pos (by simpa using ha), List.countP_cons]
      simp only [List.length_cons, ha, decide_eq_true_eq, if_pos trivial]
      rw [← searchsorted_right, ih h.2]
    · rw [searchsorted_right, List.takeWhile_cons, if_neg (by simpa using ha), List.countP_cons]
      have hzero : xs.countP (fun x => decide (x ≤ v)) = 0 := by
        rw [List.countP_eq_zero]
        intro x hx
        simp only [decide_eq_true_eq]
        intro hxv
        exact ha (le_trans (h.1 x hx) hxv)
      simp [ha, hzero]

/-- C1: on every non-empty ascending-sorted distribution and both
directions, `compute_percentile` returns exactly the value stated by the
spec — base `1.0` for a singleton, otherwise `(rank - 1) / (n - 1)` with
the right-insertion rank clamped to `[1, n]`, inverted for
lower-is-better — and on the spec's example (distribution `{10, 20, 30}`,
lower-is-better, value `20`) it returns `0.5`. -/
theorem compute_percentile_matches_spec :
    (∀ (v : Rat) (xs : List Rat) (d : String), xs ≠ [] → xs.Sorted (· ≤ ·) →
      (d = "lower" ∨ d = "higher") →
      compute_percentile v xs d = .val (percentile_spec v xs d)) ∧
    compute_percentile 20 [10, 20, 30] ("lower") = .val ((1 : Rat) / 2) := by
  constructor
  · intro v xs d hne hsorted _hd
    have hlen : xs.length ≠ 0 := by simpa using fun h => hne (List.length_eq_zero.mp h)
    have hbase : percentile_base v xs =
        (if xs.length = 1 then (1 : Rat)
          else ((rank_spec xs v : Rat) - 1) / ((xs.length : Rat) - 1)) := by
      rw [percentile_base, rank_spec, ← searchsorted_right_eq_countP hsorted]
    rw [compute_percentile, if_neg hlen, percentile_spec]
    by_cases hd : d = "lower"
    · rw [if_pos hd, if_pos hd, hbase]
    · rw [if_neg hd, if_neg hd, hbase]
  · rw [compute_percentile, percentile_base]
    have h1 : searchsorted_right [10, 20, 30] 20 = 2 := by decide
    rw [h1]
    norm_num

/-- Witness for the C1 theorem at the spec's own example. -/
theorem compute_percentile_matches_spec_witness :
    compute_percentile 20 [10, 20, 30] ("lower") =
      .val (percentile_spec 20 [10, 20, 30] ("lower")) :=
  compute_percentile_matches_spec.1 20 [10, 20, 30] ("lower") (by decide) (by decide)
    (Or.inl rfl)

/-- The right-insertion index is monotone in the query value. -/
theorem searchsorted_right_mono (xs : List Rat) {a b : Rat} (hab : a ≤ b) :
    searchsorted_right xs a ≤ searchsorted_right xs b := by
  induction xs with
  | nil => exact le_refl _
  | cons x xs ih =>
    rw [searchsorted_right, searchsorted_right, List.takeWhile_cons, List.takeWhile_cons]
    by_cases hxa : x ≤ a
    · rw [if_pos (by simpa using hxa), if_pos (by simpa using le_trans hxa hab)]
      simpa using ih
    · rw [if_neg (by simpa using hxa)]
      simp

/-- The percentile base is monotone in the achieved value. -/
theorem percentile_base_mono {xs : List Rat} (hne : xs ≠ []) {a b : Rat} (hab : a ≤ b) :
    percentile_base a xs ≤ percentile_base b xs := by
  rw [percentile_base, percentile_base]
  by_cases h1 : xs.length = 1
  · rw [if_pos h1, if_pos h1]
  · rw [if_neg h1, if_neg h1]
    have hlen0 : xs.length ≠ 0 := fun h => hne (List.length_eq_zero.mp h)
    have hlen2 : 2 ≤ xs.length := by omega
    have hr : min (max (searchsorted_right xs a) 1) xs.length ≤
        min (max (searchsorted_right xs b) 1) xs.length :=
      min_le_min (max_le_max (searchsorted_right_mono xs hab) le_rfl) le_rfl
    have hden : (0 : Rat) < (xs.length : Rat) - 1 := by
      have h2 : (2 : Rat) ≤ (xs.length : Rat) := by exact_mod_cast hlen2
      linarith
    apply (div_le_div_iff_of_pos_right hden).mpr
    have : ((min (max (searchsorted_right xs a) 1) xs.length : Nat) : Rat) ≤
        ((min (max (searchsorted_right xs b) 1) xs.length : Nat) : Rat) := by
      exact_mod_cast hr
    linarith

/-- C4: for a fixed non-empty ascending-sorted lower-is-better
distribution, a strictly smaller achieved value never gets a smaller final
percentile: `a < b` implies `percentile(a) ≥ percentile(b)`. -/
theorem compute_percentile_monotone_lower :
    ∀ (xs : List Rat) (a b : Rat), xs.Sorted (· ≤ ·) → xs ≠ [] → a < b →
      ∃ pa pb, compute_percentile a xs ("lower") = .val pa ∧
        compute_percentile b xs ("lower") = .val pb ∧ pb ≤ pa := by
  intro xs a b _hs hne hab
  have hlen : ¬ xs.length = 0 := fun h => hne (List.length_eq_zero.mp h)
  refine ⟨1 - percentile_base a xs, 1 - percentile_base b xs, ?_, ?_, ?_⟩
  · rw [compute_percentile, if_neg hlen, if_pos rfl]
  · rw [compute_percentile, if_neg hlen, if_pos rfl]
  · have := percentile_base_mono hne (le_of_lt hab)
    linarith

/-- Witness for the C4 theorem at a concrete sorted distribution. -/
theorem compute_percentile_monotone_lower_witness :
    ∃ pa pb, compute_percentile 15 [10, 20, 30] ("lower") = .val pa ∧
      compute_percentile 25 [10, 20, 30] ("lower") = .val pb ∧ pb ≤ pa :=
  compute_percentile_monotone_lower [10, 20, 30] 15 25 (by decide) (by decide) (by decide)

/-- The percentile base always lies in `[0, 1]` on a non-empty
distribution. -/
theorem percentile_base_bounds (v : Rat) (xs : List Rat) (hne : xs ≠ []) :
    0 ≤ percentile_base v xs ∧ percentile_base v xs ≤ 1 := by
  rw [percentile_base]
  by_cases h1 : xs.length = 1
  · rw [if_pos h1]
    norm_num
  · rw [if_neg h1]
    have hlen0 : xs.length ≠ 0 := fun h => hne (List.length_eq_zero.mp h)
    have hlen2 : 2 ≤ xs.length := by omega
    have hr1 : 1 ≤ min (max (searchsorted_right xs v) 1) xs.length :=
      le_min (le_max_right _ 1) (by omega)
    have hrn : min (max (searchsorted_right xs v) 1) xs.length ≤ xs.length := min_le_right _ _
    have h1r : (1 : Rat) ≤ ((min (max (searchsorted_right xs v) 1) xs.length : Nat) : Rat) := by
      exact_mod_cast hr1
    have hrn2 : ((min (max (searchsorted_right xs v) 1) xs.length : Nat) : Rat) ≤
        ((xs.length : Nat) : Rat) := by
      exact_mod_cast hrn
    have hden : (0 : Rat) < (xs.length : Rat) - 1 := by
      have h2 : (2 : Rat) ≤ (xs.length : Rat) := by exact_mod_cast hlen2
      linarith
    constructor
    · apply div_nonneg (by linarith) (le_of_lt hden)
    · rw [div_le_one hden]
      linarith

/-- On a non-empty distribution `compute_percentile` returns an actual
number in `[0, 1]`, whatever the direction string is. -/
theorem compute_percentile_bounds (v : Rat) (xs : List Rat) (d : String) (hne : xs ≠ []) :
    ∃ p, compute_percentile v xs d = .val p ∧ 0 ≤ p ∧ p ≤ 1 := by
  have hlen : ¬ xs.length = 0 := fun h => hne (List.length_eq_zero.mp h)
  obtain ⟨h0, h1⟩ := percentile_base_bounds v xs hne
  by_cases hd : d = "lower"
  · exact ⟨1 - percentile_base v xs,
      by rw [compute_percentile, if_neg hlen, if_pos hd], by linarith, by linarith⟩
  · exact ⟨percentile_base v xs,
      by rw [compute_percentile, if_neg hlen, if_neg hd], h0, h1⟩

/-- A successful association-list lookup yields a member of the list. -/
theorem mem_of_lookup {α β : Type} [BEq α] [LawfulBEq α] {l : List (α × β)} {k : α} {v : β}
    (h : List.lookup k l = some v) : (k, v) ∈ l := by
  rcases List.lookup_eq_some_iff.mp h with ⟨l₁, l₂, rfl, _⟩
  simp

/-- One scoring step keeps the running score an actual number between `0`
and the running weight, provided distributions are non-empty and weights
non-negative. -/
theorem scoreStep_invariant {dists : List (String × List Rat)} {dirs : List (String × String)}
    {ws : List (String × Rat)} (hd : ∀ p ∈ dists, p.2 ≠ []) (hw : ∀ p ∈ ws, 0 ≤ p.2)
    (acc : Rat × PyFloat) (kv : String × Rat) (s0 : Rat)
    (h2 : acc.2 = .val s0) (h0 : 0 ≤ s0) (h1 : s0 ≤ acc.1) :
    ∃ s1, (scoreStep dists dirs ws acc kv).2 = .val s1 ∧ 0 ≤ s1 ∧
      s1 ≤ (scoreStep dists dirs ws acc kv).1 := by
  rw [scoreStep]
  rcases hdist : List.lookup kv.1 dists with _ | dist
  · exact ⟨s0, h2, h0, h1⟩
  · rcases hdir : List.lookup kv.1 dirs with _ | dir
    · exact ⟨s0, h2, h0, h1⟩
    · rcases hws : List.lookup kv.1 ws with _ | w
      · exact ⟨s0, h2, h0, h1⟩
      · have hdistne : dist ≠ [] := hd (kv.1, dist) (mem_of_lookup hdist)
        have hwnn : 0 ≤ w := hw (kv.1, w) (mem_of_lookup hws)
        obtain ⟨p, hp, hp0, hp1⟩ := compute_percentile_bounds kv.2 dist dir hdistne
        refine ⟨s0 + w * p, ?_, ?_, ?_⟩
        · simp only [h2, hp, pfAddMul]
        · have := mul_nonneg hwnn hp0
          linarith
        · simp only []
          have hwp : w * p ≤ w := mul_le_of_le_one_right hwnn hp1
          linarith

/-- The scoring fold keeps the running score an actual number between `0`
and the accumulated weight. -/
theorem scoreFold_invariant {dists : List (String × List Rat)} {dirs : List (String × String)}
    {ws : List (String × Rat)} (hd : ∀ p ∈ dists, p.2 ≠ []) (hw : ∀ p ∈ ws, 0 ≤ p.2) :
    ∀ (pcs : List (String × Rat)) (acc : Rat × PyFloat) (s0 : Rat),
      acc.2 = .val s0 → 0 ≤ s0 → s0 ≤ acc.1 →
      ∃ s1, (pcs.foldl (scoreStep dists dirs ws) acc).2 = .val s1 ∧ 0 ≤ s1 ∧
        s1 ≤ (pcs.foldl (scoreStep dists dirs ws) acc).1 := by
  intro pcs
  induction pcs with
  | nil =>
    intro acc s0 h2 h0 h1
    exact ⟨s0, by simpa using h2, h0, by simpa using h1⟩
  | cons kv pcs ih =>
    intro acc s0 h2 h0 h1
    rw [List.foldl_cons]
    obtain ⟨s1, hs1, hs0, hsw⟩ := scoreStep_invariant hd hw acc kv s0 h2 h0 h1
    exact ih (scoreStep dists dirs ws acc kv) s1 hs1 hs0 hsw

/-- C2: whenever `compute_plan_score` returns a score — overlapping usable
weight non-zero — that score lies in `[0, 1]`, for any reference whose
distributions are non-empty (as built by the reference builders) and whose
weights are non-negative (as built by `build_constraint_context`, where
every weight is `1 / priority` with positive `priority`). -/
theorem compute_plan_score_in_unit_interval :
    ∀ (pcs : List (String × Rat)) (dists : List (String × List Rat))
      (dirs : List (String × String)) (ws : List (String × Rat)),
      (∀ p ∈ dists, p.2 ≠ []) → (∀ p ∈ ws, 0 ≤ p.2) →
      ∀ q, compute_plan_score pcs dists dirs ws = some (.val q) → 0 ≤ q ∧ q ≤ 1 := by
  intro pcs dists dirs ws hd hw q hq
  rw [compute_plan_score] at hq
  by_cases hz : (pcs.foldl (scoreStep dists dirs ws) (0, .val 0)).1 = 0
  · rw [if_pos hz] at hq
    cases hq
  · rw [if_neg hz] at hq
    obtain ⟨s1, hs1, h0, h1⟩ :=
      scoreFold_invariant hd hw pcs (0, .val 0) 0 rfl le_rfl le_rfl
    rw [hs1, pfDiv] at hq
    have hq2 : s1 / (pcs.foldl (scoreStep dists dirs ws) (0, .val 0)).1 = q := by
      simpa using hq
    have hpos : 0 < (pcs.foldl (scoreStep dists dirs ws) (0, .val 0)).1 :=
      lt_of_le_of_ne (le_trans h0 h1) (Ne.symm hz)
    constructor
    · rw [← hq2]
      exact div_nonneg h0 (le_of_lt hpos)
    · rw [← hq2, div_le_one hpos]
      exact h1

/-- Concrete plan score used by the C2 witness: one constraint with weight
`1`, achieved value `20` against the distribution `[10, 20, 30]`,
lower-is-better. -/
theorem compute_plan_score_concrete :
    compute_plan_score [("a", 20)] [("a", [10, 20, 30])] [("a", "lower")] [("a", 1)] =
      some (.val ((1 : Rat) / 2)) := by
  rw [compute_plan_score]
  rw [List.foldl_cons, List.foldl_nil, scoreStep]
  simp only [List.lookup_cons_self]
  rw [compute_percentile, percentile_base]
  have h1 : searchsorted_right [10, 20, 30] 20 = 2 := by decide
  rw [h1]
  norm_num [pfAddMul, pfDiv]

/-- Witness for the C2 theorem at a concrete scoreable plan. -/
theorem compute_plan_score_in_unit_interval_witness :
    0 ≤ ((1 : Rat) / 2) ∧ ((1 : Rat) / 2) ≤ 1 :=
  compute_plan_score_in_unit_interval [("a", 20)] [("a", [10, 20, 30])] [("a", "lower")]
    [("a", 1)] (by decide) (by decide) ((1 : Rat) / 2) compute_plan_score_concrete

/-- The scoring fold accumulates zero total weight when every constraint
of the plan's vector is unusable (missing distribution, direction or
weight) or carries weight zero. -/
theorem scoreFold_zero_weight {dists : List (String × List Rat)} {dirs : List (String × String)}
    {ws : List (String × Rat)} :
    ∀ (pcs : List (String × Rat)) (acc : Rat × PyFloat),
      (∀ kv ∈ pcs, List.lookup kv.1 dists = none ∨ List.lookup kv.1 dirs = none ∨
        List.lookup kv.1 ws = none ∨ List.lookup kv.1 ws = some 0) →
      acc.1 = 0 → (pcs.foldl (scoreStep dists dirs ws) acc).1 = 0 := by
  intro pcs
  induction pcs with
  | nil => intro acc _ h; simpa using h
  | cons kv pcs ih =>
    intro acc hkv h
    rw [List.foldl_cons]
    refine ih (scoreStep dists dirs ws acc kv) (fun p hp => hkv p (List.mem_cons_of_mem kv hp)) ?_
    rw [scoreStep]
    rcases hdist : List.lookup kv.1 dists with _ | dist
    · exact h
    · rcases hdir : List.lookup kv.1 dirs with _ | dir
      · exact h
      · rcases hws : List.lookup kv.1 ws with _ | w
        · exact h
        · have hw0 : w = 0 := by
            rcases hkv kv (by simp) with h1 | h1 | h1 | h1
            · rw [hdist] at h1; cases h1
            · rw [hdir] at h1; cases h1
            · rw [hws] at h1; cases h1
            · rw [hws] at h1; exact (Option.some.injEq _ _).mp h1
          simp only [hw0, h]
          norm_num

/-- C3: a plan whose constraint vector shares no usable key with the
reference — every key lacking a distribution, a direction or a weight, or
carrying weight zero, which in particular covers zero key overlap with the
distributions — scores as `None`, never as the number `0`. -/
theorem compute_plan_score_zero_overlap_none :
    ∀ (pcs : List (String × Rat)) (dists : List (String × List Rat))
      (dirs : List (String × String)) (ws : List (String × Rat)),
      (∀ kv ∈ pcs, List.lookup kv.1 dists = none ∨ List.lookup kv.1 dirs = none ∨
        List.lookup kv.1 ws = none ∨ List.lookup kv.1 ws = some 0) →
      compute_plan_score pcs dists dirs ws = none ∧
      compute_plan_score pcs dists dirs ws ≠ some (.val 0) := by
  intro pcs dists dirs ws hkv
  have hz : (pcs.foldl (scoreStep dists dirs ws) (0, .val 0)).1 = 0 :=
    scoreFold_zero_weight pcs (0, .val 0) hkv rfl
  constructor
  · rw [compute_plan_score, if_pos hz]
  · rw [compute_plan_score, if_pos hz]
    simp

/-- Witness for the C3 theorem: a plan vector disjoint from the
reference's distributions. -/
theorem compute_plan_score_zero_overlap_none_witness :
    compute_plan_score [("a", 5)] [("b", [1])] [("b", "lower")] [("b", 1)] = none ∧
    compute_plan_score [("a", 5)] [("b", [1])] [("b", "lower")] [("b", 1)] ≠
      some (.val 0) :=
  compute_plan_score_zero_overlap_none [("a", 5)] [("b", [1])] [("b", "lower")] [("b", 1)]
    (by decide)

/-- An empty raw token set makes the fuzzy fold a no-op. -/
theorem fuzzyBest_nil_tokens (psm : List (String × String)) :
    fuzzyBest [] psm = (none, 0) := by
  rw [fuzzyBest]
  induction psm with
  | nil => rfl
  | cons kv l ih =>
    rw [List.foldl_cons]
    have hstep : fuzzyStep [] ((none : Option String), (0 : Rat)) kv =
        ((none : Option String), (0 : Rat)) := by
      rw [fuzzyStep]
      by_cases ht : (tokenize kv.2).dedup = []
      · rw [if_pos ht]
      · rw [if_neg ht]
        simp
    rw [hstep]
    exact ih

/-- Every canonical name produced by the fuzzy fold is the value of some
entry of the protocol structure map (or was already in the
accumulator). -/
theorem fuzzyBest_mem (rawTokens : List String) :
    ∀ (l : List (String × String)) (acc : Option String × Rat) (c : String),
      (l.foldl (fuzzyStep rawTokens) acc).1 = some c →
      acc.1 = some c ∨ ∃ p ∈ l, p.2 = c := by
  intro l
  induction l with
  | nil =>
    intro acc c h
    exact Or.inl (by simpa using h)
  | cons kv l ih =>
    intro acc c h
    rw [List.foldl_cons] at h
    rcases ih _ c h with h1 | ⟨p, hp, hpc⟩
    · rw [fuzzyStep] at h1
      by_cases ht : (tokenize kv.2).dedup = []
      · rw [if_pos ht] at h1
        exact Or.inl h1
      · rw [if_neg ht] at h1
        by_cases hsc : acc.2 < (((rawTokens.filter
            (fun t => ((tokenize kv.2).dedup).contains t)).length : Rat) /
            ((max rawTokens.length ((tokenize kv.2).dedup).length : Nat) : Rat))
        · rw [if_pos hsc] at h1
          refine Or.inr ⟨kv, by simp, ?_⟩
          have h2 : some kv.2 = some c := h1
          exact (Option.some.injEq _ _).mp h2
        · rw [if_neg hsc] at h1
          exact Or.inl h1
    · exact Or.inr ⟨p, List.mem_cons_of_mem kv hp, hpc⟩

/-- C6: `resolve_structure` implements exactly the spec's three-step
resolution — alias-table match on the normalized label, exact vocabulary
match, then the fuzzy fallback keeping the first strictly-highest positive
token-overlap ratio — returning an absent value when no step succeeds; as
a total Lean function it raises nothing. Stated as equality with the
spec-worded `resolveStructureSpec`, under the hypothesis (true of the maps
built by `load_alias_map` and `build_protocol_structure_map`) that stored
canonical names are non-empty, so Python's truthiness tests coincide with
presence tests. -/
theorem resolve_structure_matches_spec :
    ∀ (raw_name : Option String) (alias_map protocol_structure_map : List (String × String)),
      (∀ p ∈ alias_map, p.2 ≠ "") → (∀ p ∈ protocol_structure_map, p.2 ≠ "") →
      resolve_structure raw_name alias_map protocol_structure_map =
        resolveStructureSpec raw_name alias_map protocol_structure_map := by
  intro raw_name am psm ham hpsm
  cases raw_name with
  | none => rfl
  | some raw =>
    by_cases hraw : raw = ""
    · subst hraw
      have h2 : normCore "" = "" := rfl
      simp [resolve_structure, resolveStructureSpec, truthy, h2]
    · have htr : truthy (some raw) = true := by simp [truthy, hraw]
      by_cases hnorm : normCore raw = ""
      · simp [resolve_structure, resolveStructureSpec, truthy, hraw, hnorm]
      · cases halias : List.lookup (normCore raw) am with
        | some a =>
          have ha : a ≠ "" := ham (normCore raw, a) (mem_of_lookup halias)
          simp [resolve_structure, resolveStructureSpec, truthy, hraw, hnorm, halias, ha]
        | none =>
          cases hdirect : List.lookup (normCore raw) psm with
          | some d =>
            have hdne : d ≠ "" := hpsm (normCore raw, d) (mem_of_lookup hdirect)
            simp [resolve_structure, resolveStructureSpec, truthy, hraw, hnorm, halias,
              hdirect, hdne]
          | none =>
            by_cases hrt : (tokenize raw).dedup = []
            · simp [resolve_structure, resolveStructureSpec, truthy, hraw, hnorm, halias,
                hdirect, hrt, fuzzyBest_nil_tokens]
            · cases hb : (fuzzyBest ((tokenize raw).dedup) psm).1 with
              | none =>
                simp [resolve_structure, resolveStructureSpec, truthy, hraw, hnorm, halias,
                  hdirect, hrt, hb]
              | some c =>
                have hc : c ≠ "" := by
                  rcases fuzzyBest_mem ((tokenize raw).dedup) psm (none, 0) c hb with h1 | ⟨p, hp, hpc⟩
                  · simp at h1
                  · rw [← hpc]
                    exact hpsm p hp
                by_cases hs : 0 < (fuzzyBest ((tokenize raw).dedup) psm).2
                · simp [resolve_structure, resolveStructureSpec, truthy, hraw, hnorm, halias,
                    hdirect, hrt, hb, hc, hs]
                · simp [resolve_structure, resolveStructureSpec, truthy, hraw, hnorm, halias,
                    hdirect, hrt, hb, hc, hs]

/-- Witness for the C6 theorem at a concrete fuzzy-resolved label. -/
theorem resolve_structure_matches_spec_witness :
    resolve_structure (some ("cord")) [] [("spinal cord", "Spinal Cord")] =
      resolveStructureSpec (some ("cord")) [] [("spinal cord", "Spinal Cord")] :=
  resolve_structure_matches_spec (some ("cord")) [] [("spinal cord", "Spinal Cord")]
    (by decide) (by decide)

/-- Lookup in the extraction loop's output: a key resolves to the first
record contribution, behind anything already in the accumulated
mapping. -/
theorem extractAux_lookup (lk : List String) (am psm : List (String × String)) :
    ∀ (rs : List ResultRecord) (matched : List (String × Rat)) (k : String),
      List.lookup k (extractAux lk am psm matched rs) =
        (List.lookup k matched).or
          (rs.findSome? (fun r => recordContribution lk am psm r k)) := by
  intro rs
  induction rs with
  | nil =>
    intro matched k
    simp [extractAux]
  | cons r rest ih =>
    intro matched k
    rw [extractAux]
    rw [List.findSome?_cons]
    by_cases hmem : lk.contains (record_key_str am psm r)
    · rw [if_neg (by simpa using hmem)]
      cases hparse : parse_numeric r.achieved_value with
      | none =>
        have hcontrib : recordContribution lk am psm r k = none := by
          rw [recordContribution]
          by_cases hk : record_key_str am psm r = k
          · rw [if_pos ⟨hk, by rw [← hk]; exact hmem⟩, hparse]
          · rw [if_neg (fun hand => hk hand.1)]
        rw [hcontrib, ih]
      | some v =>
        dsimp only
        by_cases hdup : (List.lookup (record_key_str am psm r) matched).isSome
        · rw [if_pos hdup, ih]
          by_cases hk : record_key_str am psm r = k
          · obtain ⟨x, hx⟩ := Option.isSome_iff_exists.mp hdup
            rw [hk] at hx
            rw [hx]
            rfl
          · have hcontrib : recordContribution lk am psm r k = none := by
              rw [recordContribution, if_neg (fun hand => hk hand.1)]
            rw [hcontrib]
        · rw [if_neg hdup, ih, List.lookup_append]
          have hnone : List.lookup (record_key_str am psm r) matched = none := by
            rcases h : List.lookup (record_key_str am psm r) matched with _ | x
            · rfl
            · rw [h] at hdup
              simp at hdup
          by_cases hk : record_key_str am psm r = k
          · have hcontrib : recordContribution lk am psm r k =
                parse_numeric r.achieved_value := by
              rw [recordContribution, if_pos ⟨hk, by rw [← hk]; exact hmem⟩]
            rw [hcontrib, hparse]
            rw [hk] at hnone
            rw [hnone, Option.none_or]
            have hsingle : List.lookup k [(record_key_str am psm r, v)] = some v := by
              rw [List.lookup_cons]
              have : (k == record_key_str am psm r) = true := by
                rw [hk]
                simp
              rw [this]
            rw [hsingle]
            rfl
          · have hcontrib : recordContribution lk am psm r k = none := by
              rw [recordContribution, if_neg (fun hand => hk hand.1)]
            rw [hcontrib]
            have hsingle : List.lookup k [(record_key_str am psm r, v)] = none := by
              rw [List.lookup_cons]
              have : (k == record_key_str am psm r) = false := by
                simp
                exact fun h => hk h.symm
              rw [this]
              rfl
            rw [hsingle, Option.or_none]
    · rw [if_pos (by simpa using hmem)]
      have hcontrib : recordContribution lk am psm r k = none := by
        rw [recordContribution]
        by_cases hk : record_key_str am psm r = k
        · rw [if_neg]
          rintro ⟨h1, h2⟩
          rw [hk] at hmem
          exact hmem h2
        · rw [if_neg (fun hand => hk hand.1)]
      rw [hcontrib, ih]

/-- The extraction loop preserves distinctness of the recorded keys. -/
theorem extractAux_nodup (lk : List String) (am psm : List (String × String)) :
    ∀ (rs : List ResultRecord) (matched : List (String × Rat)),
      (matched.map Prod.fst).Nodup →
      ((extractAux lk am psm matched rs).map Prod.fst).Nodup := by
  intro rs
  induction rs with
  | nil =>
    intro matched h
    simpa [extractAux] using h
  | cons r rest ih =>
    intro matched h
    rw [extractAux]
    by_cases hmem : lk.contains (record_key_str am psm r)
    · rw [if_neg (by simpa using hmem)]
      cases hparse : parse_numeric r.achieved_value with
      | none => exact ih matched h
      | some v =>
        dsimp only
        by_cases hdup : (List.lookup (record_key_str am psm r) matched).isSome
        · rw [if_pos hdup]
          exact ih matched h
        · rw [if_neg hdup]
          apply ih
          rw [List.map_append, List.nodup_append]
          refine ⟨h, by simp, ?_⟩
          intro a ha hb
          simp at hb
          subst hb
          have hnone : List.lookup (record_key_str am psm r) matched = none := by
            rcases hl : List.lookup (record_key_str am psm r) matched with _ | x
            · rfl
            · rw [hl] at hdup
              simp at hdup
          rw [List.lookup_eq_none_iff] at hnone
          rcases List.mem_map.mp ha with ⟨p, hp, hpa⟩
          have hne := hnone p hp
          rw [← hpa] at hne
          simp at hne
    · rw [if_pos (by simpa using hmem)]
      exact ih matched h

/-- C7: `extract_plan_constraints` records at most one achieved value per
constraint key — its key list has no duplicates — and the value looked up
under any key is exactly the first record of the plan's result list whose
built key equals that key, is present in the constraint index, and has a
parseable achieved value; records failing the index membership or the
achieved-value parse contribute nothing. -/
theorem extract_plan_constraints_first_match :
    ∀ (results : Option (List ResultRecord)) (lk : List String)
      (am psm : List (String × String)),
      ((extract_plan_constraints results lk am psm).map Prod.fst).Nodup ∧
      ∀ k, List.lookup k (extract_plan_constraints results lk am psm) =
        (results.getD []).findSome? (fun r => recordContribution lk am psm r k) := by
  intro results lk am psm
  cases results with
  | none =>
    constructor
    · simp [extract_plan_constraints]
    · intro k
      simp [extract_plan_constraints]
  | some rs =>
    refine ⟨extractAux_nodup lk am psm rs [] (by simp), ?_⟩
    intro k
    have hrw : extract_plan_constraints (some rs) lk am psm = extractAux lk am psm [] rs := rfl
    rw [hrw, extractAux_lookup]
    simp

/-- A joint-validity count never exceeds the length of the full-score
column (pandas aligns both masks on the test index). -/
theorem validCount_le (a b : List (Option PyFloat)) : validCount a b ≤ b.length := by
  rw [validCount]
  calc (a.zip b).countP (fun p => isValidScore p.1 && isValidScore p.2) ≤ (a.zip b).length :=
        List.countP_le_length _
    _ ≤ b.length := by
        rw [List.length_zip]
        omega

/-- C8: every record retained by the bootstrap loop has
`min_valid ≤ valid_plans ≤ test_size`, and a draw whose jointly scoreable
count falls below `min_valid` contributes no record at all. -/
theorem bootstrap_records_size_invariant :
    ∀ (availableSizes : List Nat) (bootstraps minValid : Nat)
      (fullScores : List (Option PyFloat))
      (sampleScoresOf : Nat → Nat → List (Option PyFloat)),
      (∀ r ∈ bootstrapRecords availableSizes bootstraps minValid fullScores sampleScoresOf,
        minValid ≤ r.valid_plans ∧ r.valid_plans ≤ r.test_size) ∧
      (∀ n b, validCount (sampleScoresOf n b) fullScores < minValid →
        ∀ r ∈ bootstrapRecords availableSizes bootstraps minValid fullScores sampleScoresOf,
          ¬ (r.sampleN = n ∧ r.bootstrap_id = b)) := by
  intro sizes bootstraps minValid fullScores f
  have hmem : ∀ r ∈ bootstrapRecords sizes bootstraps minValid fullScores f,
      ∃ n b, r = ⟨n, b, validCount (f n b) fullScores, fullScores.length⟩ ∧
        ¬ validCount (f n b) fullScores < minValid := by
    intro r hr
    rw [bootstrapRecords, List.mem_flatMap] at hr
    obtain ⟨n, _hn, hr2⟩ := hr
    rw [List.mem_filterMap] at hr2
    obtain ⟨b, _hb, hr3⟩ := hr2
    dsimp only at hr3
    by_cases hv : validCount (f n b) fullScores < minValid
    · rw [if_pos hv] at hr3
      cases hr3
    · rw [if_neg hv] at hr3
      exact ⟨n, b, ((Option.some.injEq _ _).mp hr3).symm, hv⟩
  constructor
  · intro r hr
    obtain ⟨n, b, hrec, hv⟩ := hmem r hr
    subst hrec
    refine ⟨?_, ?_⟩
    · show minValid ≤ validCount (f n b) fullScores
      omega
    · show validCount (f n b) fullScores ≤ fullScores.length
      exact validCount_le (f n b) fullScores
  · intro n b hv r hr hnb
    obtain ⟨n', b', hrec, hv'⟩ := hmem r hr
    subst hrec
    obtain ⟨h1, h2⟩ := hnb
    simp only at h1 h2
    subst h1
    subst h2
    exact hv' hv

/-- Witness for the C8 theorem on a concrete bootstrap run. -/
theorem bootstrap_records_size_invariant_witness :
    1 ≤ (⟨2, 1, 2, 2⟩ : StabilityRecord).valid_plans ∧
    (⟨2, 1, 2, 2⟩ : StabilityRecord).valid_plans ≤ (⟨2, 1, 2, 2⟩ : StabilityRecord).test_size :=
  (bootstrap_records_size_invariant [2] 2 1 [some (.val 0), some (.val 1)]
    (fun _ _ => [some (.val 0), some (.val 1)])).1 ⟨2, 1, 2, 2⟩ (by decide)

/-- Every element of an ascending-sorted list is at most its last
element. -/
theorem sorted_le_getLastD :
    ∀ (l : List Rat), l.Sorted (· ≤ ·) → ∀ x ∈ l, ∀ d, x ≤ l.getLastD d := by
  intro l
  induction l with
  | nil =>
    intro _ x hx
    cases hx
  | cons a l ih =>
    intro h x hx d
    rw [List.sorted_cons] at h
    rw [List.getLastD_cons]
    rcases List.mem_cons.mp hx with h0 | hx'
    · subst h0
      cases l with
      | nil => simp [List.getLastD]
      | cons b l' =>
        calc x ≤ b := h.1 b (by simp)
          _ ≤ (b :: l').getLastD x := ih h.2 b (by simp) x
    · exact ih h.2 x hx' a

/-- On an ascending-sorted list, `find?` returns the smallest element
satisfying the predicate whenever a smallest satisfying element exists. -/
theorem find?_sorted_min {p : Rat → Bool} :
    ∀ {l : List Rat}, l.Sorted (· ≤ ·) →
      ∀ {m : Rat}, m ∈ l → p m = true → (∀ n ∈ l, p n = true → m ≤ n) →
      l.find? p = some m := by
  intro l
  induction l with
  | nil =>
    intro _ m hm
    cases hm
  | cons a l ih =>
    intro hs m hm hpm hmin
    rw [List.sorted_cons] at hs
    by_cases hpa : p a = true
    · have hma : m ≤ a := hmin a (by simp) hpa
      have ham : a ≤ m := by
        rcases List.mem_cons.mp hm with h0 | hm'
        · rw [h0]
        · exact hs.1 m hm'
      rw [List.find?_cons_of_pos _ hpa, le_antisymm ham hma]
    · have hm' : m ∈ l := by
        rcases List.mem_cons.mp hm with h0 | hm'
        · rw [← h0] at hpa
          exact absurd hpm hpa
        · exact hm'
      rw [List.find?_cons_of_neg _ hpa]
      exact ih hs.2 hm' hpm (fun n hn hpn => hmin n (List.mem_cons_of_mem a hn) hpn)

/-- Zipping a list with its own image pairs each element with its
image. -/
theorem zip_self_map {α β : Type} (l : List α) (f : α → β) :
    l.zip (l.map f) = l.map (fun a => (a, f a)) := by
  induction l with
  | nil => rfl
  | cons a l ih =>
    rw [List.map_cons, List.zip_cons_cons, ih, List.map_cons]

/-- On a sorted non-empty sample-size list, `estimate_n_star` returns the
first sample size whose prediction is at or below the plateau target, and
the last sample size when none qualifies. -/
theorem estimate_n_star_sorted_eq (s : Rat → Rat) (nValues : List Rat)
    (intercept slope pf : Rat) (hne : nValues ≠ []) (hs : nValues.Sorted (· ≤ ·)) :
    estimate_n_star s nValues intercept slope pf =
      some (ratTrunc ((nValues.find? (fun n => decide (predictedValue s intercept slope n ≤
        nstarTarget s nValues intercept slope pf))).getD (nValues.getLastD 0))) := by
  match nValues, hne with
  | n0 :: rest, _ =>
    rw [estimate_n_star]
    rw [zip_self_map (n0 :: rest) (predictedValue s intercept slope)]
    have hpair : ((n0 :: rest).map (fun n => (n, predictedValue s intercept slope n))).Pairwise
        (fun a b => (fun (a b : Rat × Rat) => decide (a.1 ≤ b.1)) a b = true) := by
      rw [List.pairwise_map]
      exact hs.imp (fun h => by simpa using h)
    rw [List.mergeSort_of_sorted hpair]
    rw [List.find?_map]
    have hcomp : ((fun p : Rat × Rat =>
        decide (p.2 ≤ nstarTarget s (n0 :: rest) intercept slope pf)) ∘
        (fun n => (n, predictedValue s intercept slope n))) =
        (fun n => decide (predictedValue s intercept slope n ≤
          nstarTarget s (n0 :: rest) intercept slope pf)) := rfl
    rw [hcomp]
    cases hf : (n0 :: rest).find? (fun n => decide (predictedValue s intercept slope n ≤
        nstarTarget s (n0 :: rest) intercept slope pf)) with
    | none => rfl
    | some m => rfl

/-- C5: over any non-empty ascending-sorted list of sampled sizes,
`estimate_n_star` returns the smallest sampled `N` whose predicted value
`intercept + slope / sqrt(N)` is at or below
`intercept + plateau_fraction * (max_predicted - intercept)`, and the
largest sampled `N` when none qualifies; in particular, for
`intercept = 0.10`, `slope = 0.40`, `plateau_fraction = 0.05` over sampled
`N = [10, 50, 100]` no sampled `N` meets the target and the result is
`100`. The square root is any abstract function; the example constrains it
by rational bounds around the true square roots. -/
theorem estimate_n_star_matches_spec :
    (∀ (s : Rat → Rat) (nValues : List Rat) (intercept slope pf : Rat),
      nValues ≠ [] → nValues.Sorted (· ≤ ·) →
      ((∀ n ∈ nValues,
          ¬ predictedValue s intercept slope n ≤ nstarTarget s nValues intercept slope pf) →
        estimate_n_star s nValues intercept slope pf = some (ratTrunc (nValues.getLastD 0)) ∧
        ∀ n ∈ nValues, n ≤ nValues.getLastD 0) ∧
      (∀ m ∈ nValues,
        predictedValue s intercept slope m ≤ nstarTarget s nValues intercept slope pf →
        (∀ n ∈ nValues,
          predictedValue s intercept slope n ≤ nstarTarget s nValues intercept slope pf →
          m ≤ n) →
        estimate_n_star s nValues intercept slope pf = some (ratTrunc m))) ∧
    (∀ s : Rat → Rat,
      79 / 25 ≤ s 10 → s 10 ≤ 317 / 100 →
      707 / 100 ≤ s 50 → s 50 ≤ 708 / 100 →
      999 / 100 ≤ s 100 → s 100 ≤ 1001 / 100 →
      estimate_n_star s [10, 50, 100] (1 / 10) (2 / 5) (1 / 20) = some 100) := by
  have hgen : ∀ (s : Rat → Rat) (nValues : List Rat) (intercept slope pf : Rat),
      nValues ≠ [] → nValues.Sorted (· ≤ ·) →
      ((∀ n ∈ nValues,
          ¬ predictedValue s intercept slope n ≤ nstarTarget s nValues intercept slope pf) →
        estimate_n_star s nValues intercept slope pf = some (ratTrunc (nValues.getLastD 0)) ∧
        ∀ n ∈ nValues, n ≤ nValues.getLastD 0) ∧
      (∀ m ∈ nValues,
        predictedValue s intercept slope m ≤ nstarTarget s nValues intercept slope pf →
        (∀ n ∈ nValues,
          predictedValue s intercept slope n ≤ nstarTarget s nValues intercept slope pf →
          m ≤ n) →
        estimate_n_star s nValues intercept slope pf = some (ratTrunc m)) := by
    intro s nv i sl pf hne hs
    constructor
    · intro hall
      rw [estimate_n_star_sorted_eq s nv i sl pf hne hs]
      have hfind : nv.find? (fun n => decide (predictedValue s i sl n ≤
          nstarTarget s nv i sl pf)) = none :=
        List.find?_eq_none.mpr (fun x hx => by simpa using hall x hx)
      rw [hfind]
      exact ⟨rfl, fun n hn => sorted_le_getLastD nv hs n hn 0⟩
    · intro m hm hpm hmin
      rw [estimate_n_star_sorted_eq s nv i sl pf hne hs]
      have hfind : nv.find? (fun n => decide (predictedValue s i sl n ≤
          nstarTarget s nv i sl pf)) = some m :=
        find?_sorted_min hs hm (by simpa using hpm)
          (fun n hn hpn => hmin n hn (by simpa using hpn))
      rw [hfind]
      rfl
  refine ⟨hgen, ?_⟩
  intro s h1a h1b h2a h2b h3a h3b
  have hs10 : (0 : Rat) < s 10 := lt_of_lt_of_le (by norm_num) h1a
  have hs50 : (0 : Rat) < s 50 := lt_of_lt_of_le (by norm_num) h2a
  have hs100 : (0 : Rat) < s 100 := lt_of_lt_of_le (by norm_num) h3a
  have hub10 : (2 / 5 : Rat) / s 10 ≤ 10 / 79 := by
    have h := div_le_div_of_nonneg_left (by norm_num : (0 : Rat) ≤ 2 / 5)
      (by norm_num : (0 : Rat) < 79 / 25) h1a
    have he : (2 / 5 : Rat) / (79 / 25) = 10 / 79 := by norm_num
    linarith
  have hlb10 : (40 / 317 : Rat) ≤ (2 / 5 : Rat) / s 10 := by
    have h := div_le_div_of_nonneg_left (by norm_num : (0 : Rat) ≤ 2 / 5) hs10 h1b
    have he : (2 / 5 : Rat) / (317 / 100) = 40 / 317 := by norm_num
    linarith
  have hub50 : (2 / 5 : Rat) / s 50 ≤ 40 / 707 := by
    have h := div_le_div_of_nonneg_left (by norm_num : (0 : Rat) ≤ 2 / 5)
      (by norm_num : (0 : Rat) < 707 / 100) h2a
    have he : (2 / 5 : Rat) / (707 / 100) = 40 / 707 := by norm_num
    linarith
  have hlb50 : (10 / 177 : Rat) ≤ (2 / 5 : Rat) / s 50 := by
    have h := div_le_div_of_nonneg_left (by norm_num : (0 : Rat) ≤ 2 / 5) hs50 h2b
    have he : (2 / 5 : Rat) / (708 / 100) = 10 / 177 := by norm_num
    linarith
  have hub100 : (2 / 5 : Rat) / s 100 ≤ 40 / 999 := by
    have h := div_le_div_of_nonneg_left (by norm_num : (0 : Rat) ≤ 2 / 5)
      (by norm_num : (0 : Rat) < 999 / 100) h3a
    have he : (2 / 5 : Rat) / (999 / 100) = 40 / 999 := by norm_num
    linarith
  have hlb100 : (40 / 1001 : Rat) ≤ (2 / 5 : Rat) / s 100 := by
    have h := div_le_div_of_nonneg_left (by norm_num : (0 : Rat) ≤ 2 / 5) hs100 h3b
    have he : (2 / 5 : Rat) / (1001 / 100) = 40 / 1001 := by norm_num
    linarith
  have hmax : npMax ([10, 50, 100].map (predictedValue s (1 / 10) (2 / 5))) ≤
      1 / 10 + 10 / 79 := by
    simp only [List.map_cons, List.map_nil, npMax, List.foldl]
    apply max_le (max_le ?_ ?_) ?_
    · rw [predictedValue]
      linarith
    · rw [predictedValue]
      linarith
    · rw [predictedValue]
      linarith
  have htarget : nstarTarget s [10, 50, 100] (1 / 10) (2 / 5) (1 / 20) ≤
      1 / 10 + 1 / 158 := by
    rw [nstarTarget]
    linarith
  have hfail : ∀ n ∈ [(10 : Rat), 50, 100],
      ¬ predictedValue s (1 / 10) (2 / 5) n ≤
        nstarTarget s [10, 50, 100] (1 / 10) (2 / 5) (1 / 20) := by
    intro n hn
    have hn3 : n = 10 ∨ n = 50 ∨ n = 100 := by simpa using hn
    rcases hn3 with h0 | h0 | h0
    · subst h0
      rw [predictedValue]
      intro hle
      linarith
    · subst h0
      rw [predictedValue]
      intro hle
      linarith
    · subst h0
      rw [predictedValue]
      intro hle
      linarith
  obtain ⟨hres, _⟩ := (hgen s [10, 50, 100] (1 / 10) (2 / 5) (1 / 20) (by decide)
    (by decide)).1 hfail
  rw [hres]
  have hlast : ([(10 : Rat), 50, 100].getLastD 0) = 100 := rfl
  rw [hlast]
  have htr : ratTrunc (100 : Rat) = 100 := by decide
  rw [htr]

/-- Witness for the C5 theorem: a concrete rational square-root
approximation within the required bounds. -/
theorem estimate_n_star_matches_spec_witness :
    estimate_n_star
      (fun q => if q = 10 then 3163 / 1000 else if q = 50 then 7071 / 1000 else 10)
      [10, 50, 100] (1 / 10) (2 / 5) (1 / 20) = some 100 :=
  estimate_n_star_matches_spec.2
    (fun q => if q = 10 then 3163 / 1000 else if q = 50 then 7071 / 1000 else 10)
    (by norm_num) (by norm_num) (by norm_num) (by norm_num) (by norm_num) (by norm_num)
